import Mathlib

/-
Verification of the blitz-path JPS core (src/jps.rs) against its
natural-language specification.

The grid map is embedded as a total traversability oracle on coordinates,
matching the spec's grid-oracle model.  usize and i32 arithmetic from the
source (the wrapping subtractions in the seeding loop and the as-casts in
the scanners) is embedded as Nat/Int arithmetic with explicit reduction
modulo 2^64 and 2^32.  f64 costs are idealised as real numbers.  The two
unbounded loops of the source (the main search loop and the jump-point
scan) are embedded with an explicit fuel parameter: an outer result of
none means the fuel ran out, some r mirrors the value the Rust code
returns.  Code of this repository that is not part of src (node.rs,
utils.rs and the Route struct) is modelled from the spec; each such
definition carries a doc comment saying so.
-/

set_option maxHeartbeats 1000000

namespace JPS

noncomputable section

/-- Grid coordinate, as in movingai's Coords2D, which is (usize, usize). -/
abbrev Coords := Nat × Nat

/-- Two's-complement wrap of an integer into the i32 range. -/
def wrap32 (i : Int) : Int := (i + 2 ^ 31) % 2 ^ 32 - 2 ^ 31

/-- Value produced by a usize-to-i32 as-cast: truncation to 32 bits, reinterpreted signed. -/
def i32ofUsize (n : Nat) : Int := wrap32 ((n : Int) % 2 ^ 32)

/-- Value produced by an i32-to-usize as-cast: sign extension, reinterpreted as 64-bit unsigned. -/
def usizeOfInt (i : Int) : Nat := (i % 2 ^ 64).toNat

/-- One coordinate of a scanner step, as the source computes it: (x as i32 + d) as usize. -/
def stepCoord (x : Nat) (d : Int) : Nat := usizeOfInt (wrap32 (i32ofUsize x + d))

/-- usize subtraction of 1 with two's-complement wrapping, as in the seeding loop. -/
def usizeSub1 (x : Nat) : Nat := (x + (2 ^ 64 - 1)) % 2 ^ 64

/-- usize addition of 1 with two's-complement wrapping, as in the seeding loop. -/
def usizeAdd1 (x : Nat) : Nat := (x + 1) % 2 ^ 64

/-- Modelled from the spec: the search node record of node.rs (not part of src).
Position, parent cell, accumulated cost g and heuristic h; f64 costs are
idealised as real numbers. -/
structure Node where
  g : ℝ
  h : ℝ
  position : Coords
  parent : Coords

/-- Modelled from the spec: the plain constructor Node::new(g, h, position, parent). -/
def Node.new (g h : ℝ) (position parent : Coords) : Node := ⟨g, h, position, parent⟩

/-- Modelled from the spec: Euclidean distance between two cells (utils.rs is not part of src). -/
def distance (a b : Coords) : ℝ :=
  Real.sqrt (((a.1 : ℝ) - (b.1 : ℝ)) ^ 2 + ((a.2 : ℝ) - (b.2 : ℝ)) ^ 2)

/-- Modelled from the spec: Node::from_parent computes g as the parent's g plus the
step distance and h as the distance to the goal; the parent field records the
parent node's position. -/
def Node.from_parent (p : Node) (coords : Coords) (goal : Coords) : Node :=
  ⟨p.g + distance p.position coords, distance coords goal, coords, p.position⟩

/-- Total priority f = g + h of a node. -/
def Node.f (n : Node) : ℝ := n.g + n.h

/-- Sign of an integer as used by the direction utility: -1, 0 or 1. -/
def signInt (i : Int) : Int := if i < 0 then -1 else if 0 < i then 1 else 0

/-- Modelled from the spec: utils::direction (utils.rs is not part of src) returns the
sign vector describing travel direction from a node's parent to itself; the search
loop calls it as direction(position, parent). -/
def direction (a b : Coords) : Int × Int :=
  (signInt ((a.1 : Int) - (b.1 : Int)), signInt ((a.2 : Int) - (b.2 : Int)))

/-- The private Direction enum of jps.rs. -/
inductive Direction where
  | Vertical (v : Int)
  | Horizontal (h : Int)
  | Diagonal (h v : Int)

/-- Modelled from the spec: Node equality compares positions only, so
Vec::contains on the closed list is a membership-by-position test. -/
def closedContains (closed : List Node) (n : Node) : Bool :=
  closed.any (fun m => m.position == n.position)

/-- Modelled from the spec: the frontier is a priority collection returning a
minimal-f node (std BinaryHeap with the reversed ordering of node.rs); the heap
is modelled as a list with cons as push, and a pop among equal-f nodes resolves
to the earliest-listed one. -/
def popMin : List Node → Option (Node × List Node)
  | [] => none
  | a :: rest =>
    match popMin rest with
    | none => some (a, rest)
    | some (m, rest') => if m.f < a.f then some (m, a :: rest') else some (a, rest)

/-- Unwrap an optional node list, the empty list standing for None. -/
def optList (o : Option (List Node)) : List Node := o.getD []

/-- Wrap a node list, None standing for the empty list, as the detectors return it. -/
def optOfList (l : List Node) : Option (List Node) := if l.isEmpty then none else some l

/-- forced_horizontal of jps.rs: detect forced neighbours above and below a cell
scanned horizontally with step d. -/
def forced_horizontal (mapf : Coords → Bool) (check_node : Node) (d : Int)
    (goal : Coords) : Option (List Node) :=
  let next_x := stepCoord check_node.position.1 d
  let up_y := stepCoord check_node.position.2 (-1)
  let down_y := stepCoord check_node.position.2 1
  let n1 : List Node :=
    if !mapf (check_node.position.1, up_y) && mapf (next_x, up_y) then
      [Node.from_parent check_node (next_x, up_y) goal]
    else []
  let n2 : List Node :=
    if !mapf (check_node.position.1, down_y) && mapf (next_x, down_y) then
      [Node.from_parent check_node (next_x, down_y) goal]
    else []
  let nodes := n1 ++ n2
  if nodes.isEmpty then none else some nodes

/-- forced_vertical of jps.rs: detect forced neighbours left and right of a cell
scanned vertically with step d. -/
def forced_vertical (mapf : Coords → Bool) (check_node : Node) (d : Int)
    (goal : Coords) : Option (List Node) :=
  let next_y := stepCoord check_node.position.2 d
  let left_x := stepCoord check_node.position.1 (-1)
  let right_x := stepCoord check_node.position.1 1
  let n1 : List Node :=
    if !mapf (left_x, check_node.position.2) && mapf (left_x, next_y) then
      [Node.from_parent check_node (left_x, next_y) goal]
    else []
  let n2 : List Node :=
    if !mapf (right_x, check_node.position.2) && mapf (right_x, next_y) then
      [Node.from_parent check_node (right_x, next_y) goal]
    else []
  let nodes := n1 ++ n2
  if nodes.isEmpty then none else some nodes

/-- The step vector chosen for a direction variant, as set in expand's match. -/
def dirVec : Direction → Int × Int
  | .Vertical v => (0, v)
  | .Horizontal h => (h, 0)
  | .Diagonal h v => (h, v)

/-- The next cell of a scan: both coordinates stepped through the i32/usize casts. -/
def stepPos (p : Coords) (d : Int × Int) : Coords := (stepCoord p.1 d.1, stepCoord p.2 d.2)

/-- expand of jps.rs, with an explicit fuel parameter bounding both the
straight-line loop and the diagonal recursion; the outer Option is none when
the fuel runs out, and the inner Option mirrors the Rust return value.
s is the node the scan entered with, current the advancing cursor. -/
def expand (mapf : Coords → Bool) (goal : Coords) :
    Nat → Node → Node → Direction → Option (Option (List Node))
  | 0, _, _, _ => none
  | fuel + 1, s, current, dir =>
    if current.position = goal then some (some [current])
    else if !mapf current.position then some none
    else
      let collected : Option (List Node) :=
        match dir with
        | .Vertical v => some (optList (forced_vertical mapf current v goal))
        | .Horizontal h => some (optList (forced_horizontal mapf current h goal))
        | .Diagonal h v =>
          match expand mapf goal fuel current current (.Horizontal h),
              expand mapf goal fuel current current (.Vertical v) with
          | some o1, some o2 => some (optList o1 ++ optList o2)
          | _, _ => none
      match collected with
      | none => none
      | some nodes =>
        let next_position := stepPos current.position (dirVec dir)
        if nodes.isEmpty then
          expand mapf goal fuel s (Node.from_parent s next_position goal) dir
        else
          some (some (nodes ++ [current, Node.from_parent current next_position goal]))

/-- The collection step of one expand iteration: forced neighbours for straight
directions, the two recursive sub-scans for a diagonal; none when a sub-scan
runs out of fuel. -/
def collectNodes (mapf : Coords → Bool) (goal : Coords) (fuel : Nat) (current : Node) :
    Direction → Option (List Node)
  | .Vertical v => some (optList (forced_vertical mapf current v goal))
  | .Horizontal h => some (optList (forced_horizontal mapf current h goal))
  | .Diagonal h v =>
    match expand mapf goal fuel current current (.Horizontal h),
        expand mapf goal fuel current current (.Vertical v) with
    | some o1, some o2 => some (optList o1 ++ optList o2)
    | _, _ => none

/-- check_jump of jps.rs: classify the travel direction and run expand. -/
def check_jump (fuel : Nat) (mapf : Coords → Bool) (parent : Node) (d : Int × Int)
    (goal : Coords) : Option (Option (List Node)) :=
  let dir :=
    if d.1 ≠ 0 ∧ d.2 ≠ 0 then Direction.Diagonal d.1 d.2
    else if d.1 ≠ 0 then Direction.Horizontal d.1
    else Direction.Vertical d.2
  expand mapf goal fuel parent parent dir

/-- Push a batch of nodes onto the list-modelled frontier, one after the other. -/
def pushAll (ns : List Node) (opn : List Node) : List Node := ns.reverse ++ opn

/-- Modelled from the spec: utils::rewind (utils.rs is not part of src) walks
parent links through the closed list starting from the goal node, producing the
cells from goal back to start; the start node is its own parent and stops the
walk, and a missing ancestor silently truncates the path. -/
def rewindAux (closed : List Node) : Nat → Node → List Coords
  | 0, node => [node.position]
  | fuel + 1, node =>
    if node.position = node.parent then [node.position]
    else
      match closed.find? (fun m => m.position == node.parent) with
      | none => [node.position]
      | some m => node.position :: rewindAux closed fuel m

/-- rewind with enough fuel to visit every closed node once. -/
def rewind (node : Node) (closed : List Node) : List Coords :=
  rewindAux closed (closed.length + 1) node

/-- Modelled from the spec: the Route result carries the total cost and the
path ordered from start to goal. -/
structure Route where
  distance : ℝ
  path : List Coords

/-- Modelled from the spec: a Route is built from the accumulated g and the
rewound goal-to-start cell list, which is reversed into start-to-goal order. -/
def routeFrom (g : ℝ) (path : List Coords) : Route := ⟨g, path.reverse⟩

/-- The route returned at the goal: distance from the goal node's g, path from
rewind over the final closed list. -/
def routeOf (p : Node × List Node) : Route := routeFrom p.1.g (rewind p.1 p.2)

/-- The start node of jps_path: zero g, heuristic h, and itself as parent. -/
def start_node (start goal : Coords) : Node := Node.new 0 (distance start goal) start start

/-- An inclusive usize range a..=b as a list. -/
def rangeIncl (a b : Nat) : List Nat := (List.range (b + 1 - a)).map (a + ·)

/-- The cells visited by the two seeding loops of jps_path: x from start.x - 1
to start.x + 1 (usize wrapping), y likewise, in loop order. -/
def seedCoords (start : Coords) : List Coords :=
  let prev_x := usizeSub1 start.1
  let next_x := usizeAdd1 start.1
  let prev_y := usizeSub1 start.2
  let next_y := usizeAdd1 start.2
  (rangeIncl prev_x next_x).flatMap (fun x => (rangeIncl prev_y next_y).map (fun y => (x, y)))

/-- The nodes pushed onto the frontier by the seeding loops, each built via
from_parent from the start node. -/
def seedNodes (sn : Node) (goal : Coords) : List Node :=
  (seedCoords sn.position).map (fun c => Node.from_parent sn c goal)

/-- The main search loop of jps_path, fuelled; returns the goal node and the
final closed list (after the remaining frontier has been merged into it), from
which the route is built, or none (inner) when the frontier empties. -/
def jpsLoopAux (mapf : Coords → Bool) (goal : Coords) :
    Nat → List Node → List Node → Option (Option (Node × List Node))
  | 0, _, _ => none
  | fuel + 1, opn, closed =>
    match popMin opn with
    | none => some none
    | some (node_current, opn') =>
      if node_current.position = goal then some (some (node_current, closed ++ opn'))
      else if closedContains closed node_current then jpsLoopAux mapf goal fuel opn' closed
      else
        match check_jump fuel mapf node_current
            (direction node_current.position node_current.parent) goal with
        | none => none
        | some ob =>
          jpsLoopAux mapf goal fuel (pushAll (optList ob) opn') (closed ++ [node_current])

/-- jps_path up to the point where the route is built: the goal node and final
closed list of a successful search. -/
def jpsPathAux (fuel : Nat) (mapf : Coords → Bool) (start goal : Coords) :
    Option (Option (Node × List Node)) :=
  if start = goal then jpsLoopAux mapf goal fuel [start_node start goal] []
  else jpsLoopAux mapf goal fuel (seedNodes (start_node start goal) goal) [start_node start goal]

/-- jps_path of jps.rs, fuelled: some (some r) is a found route, some none is
the NotFound outcome, none means the fuel ran out. -/
def jps_path (fuel : Nat) (mapf : Coords → Bool) (start goal : Coords) : Option (Option Route) :=
  (jpsPathAux fuel mapf start goal).map (Option.map routeOf)

/-- A cell is the position of some node of a list. -/
def posIn (L : List Node) (c : Coords) : Prop := ∃ m ∈ L, m.position = c

/-- The cells reached by repeatedly following parent positions from a goal node,
resolving each parent in the closed list the way rewind does; the walk does not
continue past a self-parented (start) node. -/
inductive AncCell (L : List Node) (g0 : Node) : Coords → Prop
  | base : g0.position ≠ g0.parent → AncCell L g0 g0.parent
  | step (c : Coords) (m : Node) : AncCell L g0 c → m ∈ L → m.position = c →
      m.position ≠ m.parent → AncCell L g0 m.parent

/-- Every ancestor of the goal node is present, by position, in the closed list. -/
def AncClosed (L : List Node) (g0 : Node) : Prop := ∀ c, AncCell L g0 c → posIn L c

/-- The mathematical one-step move in direction d, without wrapping: x + 1 or x - 1. -/
def natStep (x : Nat) (d : Int) : Nat := if d = 1 then x + 1 else x - 1

/-- A straight-line scan parameterised by a forced-neighbour detector and a step
vector; it performs no recursive sub-scan of any kind. -/
def straightExpand (mapf : Coords → Bool) (goal : Coords) (forced : Node → Option (List Node))
    (dvec : Int × Int) : Nat → Node → Node → Option (Option (List Node))
  | 0, _, _ => none
  | fuel + 1, s, current =>
    if current.position = goal then some (some [current])
    else if !mapf current.position then some none
    else
      let nodes := optList (forced current)
      let next_position := stepPos current.position dvec
      if nodes.isEmpty then
        straightExpand mapf goal forced dvec fuel s (Node.from_parent s next_position goal)
      else
        some (some (nodes ++ [current, Node.from_parent current next_position goal]))

/-- The diagonal scan written with exactly one level of sub-scanning: its two
sub-scans are straightExpand instances, never a diagonal scan. -/
def diagExpand (mapf : Coords → Bool) (goal : Coords) (h v : Int) :
    Nat → Node → Node → Option (Option (List Node))
  | 0, _, _ => none
  | fuel + 1, s, current =>
    if current.position = goal then some (some [current])
    else if !mapf current.position then some none
    else
      match straightExpand mapf goal (fun c => forced_horizontal mapf c h goal) (h, 0)
          fuel current current,
        straightExpand mapf goal (fun c => forced_vertical mapf c v goal) (0, v)
          fuel current current with
      | some o1, some o2 =>
        let nodes := optList o1 ++ optList o2
        let next_position := stepPos current.position (h, v)
        if nodes.isEmpty then diagExpand mapf goal h v fuel s (Node.from_parent s next_position goal)
        else some (some (nodes ++ [current, Node.from_parent current next_position goal]))
      | _, _ => none

/-- The invariant of the main search loop used for path-reconstruction safety:
every node of the frontier or the closed list has its parent present by
position in one of them, and no node is parented at the goal. -/
def LoopInv (goal : Coords) (opn closed : List Node) : Prop :=
  ∀ n ∈ opn ++ closed, posIn (opn ++ closed) n.parent ∧ n.parent ≠ goal

end

theorem stepCoord_one (x : Nat) (h : x + 1 < 2 ^ 31) : stepCoord x 1 = x + 1 := by
  simp only [stepCoord, usizeOfInt, wrap32, i32ofUsize]
  omega

theorem stepCoord_neg_one (x : Nat) (h1 : 1 ≤ x) (h2 : x < 2 ^ 31) :
    stepCoord x (-1) = x - 1 := by
  simp only [stepCoord, usizeOfInt, wrap32, i32ofUsize]
  omega

theorem popMin_perm : ∀ {l : List Node} {n : Node} {l' : List Node},
    popMin l = some (n, l') → l.Perm (n :: l') := by
  intro l
  induction l with
  | nil => intro n l' h; simp [popMin] at h
  | cons a rest ih =>
    intro n l' h
    cases hr : popMin rest with
    | none =>
      simp only [popMin, hr, Option.some.injEq, Prod.mk.injEq] at h
      obtain ⟨rfl, rfl⟩ := h
      exact List.Perm.refl _
    | some p =>
      obtain ⟨m, rest'⟩ := p
      simp only [popMin, hr] at h
      by_cases hf : m.f < a.f
      · rw [if_pos hf] at h
        simp only [Option.some.injEq, Prod.mk.injEq] at h
        obtain ⟨rfl, rfl⟩ := h
        exact ((ih hr).cons a).trans (List.Perm.swap m a rest')
      · rw [if_neg hf] at h
        simp only [Option.some.injEq, Prod.mk.injEq] at h
        obtain ⟨rfl, rfl⟩ := h
        exact List.Perm.refl _

theorem expand_succ (mapf : Coords → Bool) (goal : Coords) (fuel : Nat) (s current : Node)
    (dir : Direction) :
    expand mapf goal (fuel + 1) s current dir =
      if current.position = goal then some (some [current])
      else if !mapf current.position then some none
      else
        match collectNodes mapf goal fuel current dir with
        | none => none
        | some nodes =>
          if nodes.isEmpty then
            expand mapf goal fuel s
              (Node.from_parent s (stepPos current.position (dirVec dir)) goal) dir
          else
            some (some (nodes ++
              [current, Node.from_parent current (stepPos current.position (dirVec dir)) goal])) := by
  cases dir <;> rfl

theorem jps_path_self (mapf : Coords → Bool) (c : Coords) (fuel : Nat) :
    jps_path (fuel + 1) mapf c c = some (some ⟨0, [c]⟩) := by
  simp [jps_path, jpsPathAux, jpsLoopAux, popMin, start_node, Node.new, routeOf, routeFrom,
    rewind, rewindAux]

theorem rangeIncl_three (a : Nat) (ha : 1 ≤ a) : rangeIncl (a - 1) (a + 1) = [a - 1, a, a + 1] := by
  unfold rangeIncl
  rw [show a + 1 + 1 - (a - 1) = 3 by omega]
  rw [show List.range 3 = [0, 1, 2] from rfl]
  simp only [List.map, List.cons.injEq, and_true]
  refine ⟨by omega, by omega, by omega⟩

theorem seedCoords_eq (x y : Nat) (hx : 1 ≤ x) (hy : 1 ≤ y)
    (hx2 : x + 1 < 2 ^ 64) (hy2 : y + 1 < 2 ^ 64) :
    seedCoords (x, y) =
      [(x-1, y-1), (x-1, y), (x-1, y+1), (x, y-1), (x, y), (x, y+1),
       (x+1, y-1), (x+1, y), (x+1, y+1)] := by
  have h1 : usizeSub1 x = x - 1 := by unfold usizeSub1; omega
  have h2 : usizeAdd1 x = x + 1 := by unfold usizeAdd1; omega
  have h3 : usizeSub1 y = y - 1 := by unfold usizeSub1; omega
  have h4 : usizeAdd1 y = y + 1 := by unfold usizeAdd1; omega
  simp only [seedCoords]
  rw [h1, h2, h3, h4, rangeIncl_three x hx, rangeIncl_three y hy]
  rfl

theorem closedContains_iff (closed : List Node) (n : Node) :
    closedContains closed n = true ↔ ∃ m ∈ closed, m.position = n.position := by
  simp [closedContains]

theorem jpsLoop_exhaust (mapf : Coords → Bool) (goal : Coords) :
    ∀ fuel opn closed,
      (∀ n ∈ opn, n.position ≠ goal ∧ mapf n.position = false) →
      2 * opn.length + 1 ≤ fuel →
      jpsLoopAux mapf goal fuel opn closed = some none := by
  intro fuel
  induction fuel with
  | zero => intro opn closed _ hf; omega
  | succ fuel ih =>
    intro opn closed h hf
    cases hp : popMin opn with
    | none => simp [jpsLoopAux, hp]
    | some p =>
      obtain ⟨n, opn'⟩ := p
      have hperm := popMin_perm hp
      have hn : n ∈ opn := hperm.mem_iff.mpr (List.mem_cons_self n opn')
      have hlen : opn.length = opn'.length + 1 := by simpa using hperm.length_eq
      obtain ⟨hng, hnt⟩ := h n hn
      have hsub : ∀ m ∈ opn', m.position ≠ goal ∧ mapf m.position = false := by
        intro m hm
        exact h m (hperm.mem_iff.mpr (List.mem_cons_of_mem n hm))
      simp only [jpsLoopAux, hp]
      rw [if_neg hng]
      by_cases hc : closedContains closed n = true
      · rw [if_pos hc]
        exact ih opn' closed hsub (by omega)
      · rw [if_neg hc]
        obtain ⟨fuel', rfl⟩ : ∃ k, fuel = k + 1 := ⟨fuel - 1, by omega⟩
        have hcj : check_jump (fuel' + 1) mapf n
            (direction n.position n.parent) goal = some none := by
          simp only [check_jump]
          rw [expand_succ, if_neg hng]
          simp [hnt]
        simp only [hcj]
        simp only [optList, Option.getD, pushAll, List.reverse_nil, List.nil_append]
        exact ih opn' (closed ++ [n]) hsub (by omega)

/-- C9: for every grid oracle and every cell c, jps_path(map, c, c) returns a
route with total cost 0 whose path contains only the cell c. -/
theorem c9_trivial_path (mapf : Coords → Bool) (c : Coords) (fuel : Nat) :
    jps_path (fuel + 1) mapf c c = some (some ⟨0, [c]⟩) :=
  jps_path_self mapf c fuel

/-- C1 counterexample: on the all-blocked oracle with start = goal = (3,3), both
endpoints untraversable, jps_path returns a zero-cost route, not NotFound, so a
route can be returned whose start and goal are untraversable. -/
theorem c1_counterexample :
    (fun _ => false : Coords → Bool) (3, 3) = false ∧
    jps_path 1 (fun _ => false : Coords → Bool) (3, 3) (3, 3) =
      some (some ⟨0, [(3, 3)]⟩) :=
  ⟨rfl, jps_path_self (fun _ => false) (3, 3) 0⟩

/-- C1 (amended): if start and goal differ, every cell of the 3-by-3 block the
seeding loop enqueues around the start is untraversable, and the goal lies
outside that block, then jps_path degrades to NotFound (with enough fuel for
the nine seeded nodes). -/
theorem c1_amended_thm (fuel : Nat) (mapf : Coords → Bool) (x y : Nat) (goal : Coords)
    (hx : 1 ≤ x) (hy : 1 ≤ y) (hx2 : x + 1 < 2 ^ 64) (hy2 : y + 1 < 2 ^ 64)
    (hne : (x, y) ≠ goal)
    (hblock : ∀ a b, x - 1 ≤ a → a ≤ x + 1 → y - 1 ≤ b → b ≤ y + 1 → mapf (a, b) = false)
    (hgoal : goal.1 + 1 < x ∨ x + 1 < goal.1 ∨ goal.2 + 1 < y ∨ y + 1 < goal.2)
    (hfuel : 19 ≤ fuel) :
    jps_path fuel mapf (x, y) goal = some none := by
  have hseed := seedCoords_eq x y hx hy hx2 hy2
  have hnodes : ∀ n ∈ seedNodes (start_node (x, y) goal) goal,
      n.position ≠ goal ∧ mapf n.position = false := by
    intro n hn
    simp only [seedNodes, List.mem_map] at hn
    obtain ⟨c, hc, rfl⟩ := hn
    rw [show (Node.from_parent (start_node (x, y) goal) c goal).position = c from rfl]
    rw [show (start_node (x, y) goal).position = (x, y) from rfl, hseed] at hc
    have hb : x - 1 ≤ c.1 ∧ c.1 ≤ x + 1 ∧ y - 1 ≤ c.2 ∧ c.2 ≤ y + 1 := by
      simp only [List.mem_cons, List.not_mem_nil, or_false] at hc
      rcases hc with rfl|rfl|rfl|rfl|rfl|rfl|rfl|rfl|rfl <;> simp <;> omega
    refine ⟨?_, ?_⟩
    · intro hceq
      subst hceq
      omega
    · rw [show c = (c.1, c.2) from rfl]
      exact hblock c.1 c.2 hb.1 hb.2.1 hb.2.2.1 hb.2.2.2
  have hlen : (seedNodes (start_node (x, y) goal) goal).length = 9 := by
    simp only [seedNodes, List.length_map]
    rw [show (start_node (x, y) goal).position = (x, y) from rfl, hseed]
    rfl
  simp only [jps_path, jpsPathAux]
  rw [if_neg hne]
  rw [jpsLoop_exhaust mapf goal fuel _ _ hnodes (by omega)]
  rfl

/-- C1 witness: a concrete all-blocked map with start (1,1) and goal (5,5)
satisfies the amended hypotheses, and the search reports NotFound. -/
theorem c1_witness :
    jps_path 19 (fun _ => false : Coords → Bool) (1, 1) (5, 5) = some none :=
  c1_amended_thm 19 (fun _ => false) 1 1 (5, 5) (by norm_num) (by norm_num) (by norm_num)
    (by norm_num) (by decide) (fun _ _ _ _ _ _ => rfl) (by norm_num) (by norm_num)

theorem rangeIncl_border_empty : rangeIncl (usizeSub1 0) (usizeAdd1 0) = [] := by
  have h : usizeAdd1 0 + 1 - usizeSub1 0 = 0 := by
    simp only [usizeAdd1, usizeSub1]
    omega
  rw [rangeIncl, h]
  rfl

theorem seedCoords_border (x y : Nat) (hb : x = 0 ∨ y = 0) : seedCoords (x, y) = [] := by
  rcases hb with rfl | rfl
  · simp only [seedCoords]
    rw [rangeIncl_border_empty]
    rfl
  · simp only [seedCoords]
    rw [rangeIncl_border_empty]
    simp

theorem jps_border_start (fuel : Nat) (mapf : Coords → Bool) (start goal : Coords)
    (hne : start ≠ goal) (hb : start.1 = 0 ∨ start.2 = 0) :
    jps_path (fuel + 1) mapf start goal = some none := by
  have hseed : seedNodes (start_node start goal) goal = [] := by
    simp only [seedNodes]
    rw [show (start_node start goal).position = start from rfl]
    rw [show start = (start.1, start.2) from rfl] at hb ⊢
    rw [seedCoords_border start.1 start.2 hb]
    rfl
  simp only [jps_path, jpsPathAux]
  rw [if_neg hne, hseed]
  simp [jpsLoopAux, popMin]

/-- C10 counterexample: on a fully open map with start (0,5) on the x = 0
border, the call does return NotFound (the wrapped seeding range is empty), so
the underflow does not prevent the NotFound outcome the claim denies. -/
theorem c10_counterexample :
    jps_path 1 (fun _ => true : Coords → Bool) (0, 5) (3, 5) = some none :=
  jps_border_start 0 (fun _ => true) (0, 5) (3, 5) (by decide) (Or.inl rfl)

/-- C10 (amended): the seeding step computes start.x - 1 and start.y - 1 with
wrapping usize arithmetic; on the x = 0 or y = 0 border the subtraction wraps
to 2^64 - 1, the seeding ranges become empty, and the call immediately returns
NotFound without examining any node, even when a path exists (an
overflow-checked build would panic instead). -/
theorem c10_amended_thm (fuel : Nat) (mapf : Coords → Bool) (start goal : Coords)
    (hne : start ≠ goal) (hborder : start.1 = 0 ∨ start.2 = 0) :
    jps_path (fuel + 1) mapf start goal = some none ∧
    (start.1 = 0 → usizeSub1 start.1 = 2 ^ 64 - 1) ∧
    (start.2 = 0 → usizeSub1 start.2 = 2 ^ 64 - 1) := by
  refine ⟨jps_border_start fuel mapf start goal hne hborder, ?_, ?_⟩
  · intro h
    rw [h]
    simp only [usizeSub1]
    omega
  · intro h
    rw [h]
    simp only [usizeSub1]
    omega

/-- C10 witness: a concrete border start on the y = 0 edge of an open map. -/
theorem c10_witness :
    jps_path 4 (fun _ => true : Coords → Bool) (4, 0) (9, 9) = some none ∧
    (((4, 0) : Coords).2 = 0 → usizeSub1 ((4, 0) : Coords).2 = 2 ^ 64 - 1) := by
  have h := c10_amended_thm 3 (fun _ => true) (4, 0) (9, 9) (by decide) (Or.inr rfl)
  exact ⟨h.1, h.2.2⟩

/-- C2 counterexample: for start (2,2) the seeding loops enqueue nine cells,
the 3-by-3 block including the start cell itself, not exactly the eight
neighbours, so a node at the start's position is enqueued as a candidate. -/
theorem c2_counterexample :
    ((seedNodes (start_node (2, 2) (9, 9)) (9, 9)).map Node.position =
      [(1, 1), (1, 2), (1, 3), (2, 1), (2, 2), (2, 3), (3, 1), (3, 2), (3, 3)]) ∧
    (seedNodes (start_node (2, 2) (9, 9)) (9, 9)).length ≠ 8 := by
  have h := seedCoords_eq 2 2 (by norm_num) (by norm_num) (by norm_num) (by norm_num)
  constructor
  · simp only [seedNodes, List.map_map]
    rw [show (start_node (2, 2) (9, 9)).position = ((2 : Nat), (2 : Nat)) from rfl, h]
    rfl
  · simp only [seedNodes, List.length_map]
    rw [show (start_node (2, 2) (9, 9)).position = ((2 : Nat), (2 : Nat)) from rfl, h]
    decide

/-- C2 (amended): for start away from the wrapping borders and distinct from
the goal, the frontier is seeded with the nine cells of the 3-by-3 block
centred on the start (the eight neighbours plus a duplicate node at the start
cell), each built via from_parent from the zero-cost self-parented start node,
and the start node itself goes directly onto the closed list. -/
theorem c2_amended_thm (fuel : Nat) (mapf : Coords → Bool) (x y : Nat) (goal : Coords)
    (hx : 1 ≤ x) (hy : 1 ≤ y) (hx2 : x + 1 < 2 ^ 64) (hy2 : y + 1 < 2 ^ 64)
    (hne : (x, y) ≠ goal) :
    seedNodes (start_node (x, y) goal) goal =
      [(x-1, y-1), (x-1, y), (x-1, y+1), (x, y-1), (x, y), (x, y+1),
       (x+1, y-1), (x+1, y), (x+1, y+1)].map
        (fun c => Node.from_parent (start_node (x, y) goal) c goal) ∧
    (start_node (x, y) goal).g = 0 ∧
    (start_node (x, y) goal).parent = (x, y) ∧
    jps_path fuel mapf (x, y) goal =
      (jpsLoopAux mapf goal fuel (seedNodes (start_node (x, y) goal) goal)
        [start_node (x, y) goal]).map (Option.map routeOf) := by
  refine ⟨?_, rfl, rfl, ?_⟩
  · simp only [seedNodes]
    rw [show (start_node (x, y) goal).position = (x, y) from rfl,
      seedCoords_eq x y hx hy hx2 hy2]
  · simp only [jps_path, jpsPathAux]
    rw [if_neg hne]

/-- C2 witness: a concrete in-range start discharging the amended hypotheses. -/
theorem c2_witness : (start_node (2, 3) (7, 7)).g = 0 :=
  (c2_amended_thm 0 (fun _ => true) 2 3 (7, 7) (by norm_num) (by norm_num) (by norm_num)
    (by norm_num) (by decide)).2.1

/-- C3: for a popped node that is neither the goal nor closed, the loop body
passes the scanner the direction computed from parent to position, which is
exactly the sign vector (sign(position.x - parent.x), sign(position.y - parent.y)). -/
theorem c3_direction_thm (mapf : Coords → Bool) (goal : Coords) (fuel : Nat)
    (opn opn' closed : List Node) (n : Node)
    (hpop : popMin opn = some (n, opn'))
    (hng : n.position ≠ goal)
    (hnc : closedContains closed n = false) :
    jpsLoopAux mapf goal (fuel + 1) opn closed =
      (match check_jump fuel mapf n
          (signInt ((n.position.1 : Int) - (n.parent.1 : Int)),
            signInt ((n.position.2 : Int) - (n.parent.2 : Int))) goal with
        | none => none
        | some ob =>
          jpsLoopAux mapf goal fuel (pushAll (optList ob) opn') (closed ++ [n])) ∧
    direction n.position n.parent =
      (signInt ((n.position.1 : Int) - (n.parent.1 : Int)),
        signInt ((n.position.2 : Int) - (n.parent.2 : Int))) := by
  refine ⟨?_, rfl⟩
  simp only [jpsLoopAux, hpop]
  rw [if_neg hng, if_neg (by simp [hnc])]
  rfl

/-- C3 witness: a concrete singleton frontier discharging the hypotheses. -/
theorem c3_witness :
    direction (Node.new 0 0 (2, 2) (1, 1)).position (Node.new 0 0 (2, 2) (1, 1)).parent =
      (signInt (((Node.new 0 0 (2, 2) (1, 1)).position.1 : Int) -
          ((Node.new 0 0 (2, 2) (1, 1)).parent.1 : Int)),
        signInt (((Node.new 0 0 (2, 2) (1, 1)).position.2 : Int) -
          ((Node.new 0 0 (2, 2) (1, 1)).parent.2 : Int))) :=
  (c3_direction_thm (fun _ => true) (9, 9) 0 [Node.new 0 0 (2, 2) (1, 1)] [] []
    (Node.new 0 0 (2, 2) (1, 1)) rfl (by decide) rfl).2

/-- C5: away from the wrapping borders, forced_horizontal emits a node at
(x+dx, y-1) exactly when (x, y-1) is blocked and (x+dx, y-1) is open, likewise
below at y+1; zero, one or two nodes result, None standing for zero, and
forced_vertical is the left/right-symmetric property with step dy. -/
theorem c5_forced_thm (mapf : Coords → Bool) (goal : Coords) (n : Node) (d : Int)
    (hx1 : 1 ≤ n.position.1) (hy1 : 1 ≤ n.position.2)
    (hx2 : n.position.1 + 1 < 2 ^ 31) (hy2 : n.position.2 + 1 < 2 ^ 31)
    (hd : d = 1 ∨ d = -1) :
    forced_horizontal mapf n d goal =
      optOfList
        ((if !mapf (n.position.1, n.position.2 - 1) &&
            mapf (natStep n.position.1 d, n.position.2 - 1) then
            [Node.from_parent n (natStep n.position.1 d, n.position.2 - 1) goal]
          else []) ++
         (if !mapf (n.position.1, n.position.2 + 1) &&
            mapf (natStep n.position.1 d, n.position.2 + 1) then
            [Node.from_parent n (natStep n.position.1 d, n.position.2 + 1) goal]
          else [])) ∧
    forced_vertical mapf n d goal =
      optOfList
        ((if !mapf (n.position.1 - 1, n.position.2) &&
            mapf (n.position.1 - 1, natStep n.position.2 d) then
            [Node.from_parent n (n.position.1 - 1, natStep n.position.2 d) goal]
          else []) ++
         (if !mapf (n.position.1 + 1, n.position.2) &&
            mapf (n.position.1 + 1, natStep n.position.2 d) then
            [Node.from_parent n (n.position.1 + 1, natStep n.position.2 d) goal]
          else [])) := by
  have hup : stepCoord n.position.2 (-1) = n.position.2 - 1 :=
    stepCoord_neg_one _ hy1 (by omega)
  have hdn : stepCoord n.position.2 1 = n.position.2 + 1 := stepCoord_one _ hy2
  have hlf : stepCoord n.position.1 (-1) = n.position.1 - 1 :=
    stepCoord_neg_one _ hx1 (by omega)
  have hrt : stepCoord n.position.1 1 = n.position.1 + 1 := stepCoord_one _ hx2
  have hnx : stepCoord n.position.1 d = natStep n.position.1 d := by
    rcases hd with rfl | rfl
    · rw [hrt]; simp [natStep]
    · rw [hlf]; simp [natStep]
  have hny : stepCoord n.position.2 d = natStep n.position.2 d := by
    rcases hd with rfl | rfl
    · rw [hdn]; simp [natStep]
    · rw [hup]; simp [natStep]
  constructor
  · simp only [forced_horizontal, optOfList]
    rw [hnx, hup, hdn]
  · simp only [forced_vertical, optOfList]
    rw [hny, hlf, hrt]

/-- C5 witness: a cell blocked directly above the scanned cell with the
diagonally-forward cell open yields exactly one forced node. -/
theorem c5_witness :
    forced_horizontal (fun c => !(c == ((2 : Nat), (1 : Nat)))) (Node.new 0 0 (2, 2) (1, 2))
        1 (9, 9) =
      optOfList
        ((if !(fun c => !(c == ((2 : Nat), (1 : Nat)))) (2, 2 - 1) &&
            (fun c => !(c == ((2 : Nat), (1 : Nat)))) (natStep 2 1, 2 - 1) then
            [Node.from_parent (Node.new 0 0 (2, 2) (1, 2)) (natStep 2 1, 2 - 1) (9, 9)]
          else []) ++
         (if !(fun c => !(c == ((2 : Nat), (1 : Nat)))) (2, 2 + 1) &&
            (fun c => !(c == ((2 : Nat), (1 : Nat)))) (natStep 2 1, 2 + 1) then
            [Node.from_parent (Node.new 0 0 (2, 2) (1, 2)) (natStep 2 1, 2 + 1) (9, 9)]
          else [])) :=
  (c5_forced_thm (fun c => !(c == ((2 : Nat), (1 : Nat)))) (9, 9) (Node.new 0 0 (2, 2) (1, 2))
    1 (by decide) (by decide) (by decide) (by decide) (Or.inl rfl)).1

/-- C6: when an expand iteration collects a nonempty set of nodes, the scan
stops and returns exactly the collected nodes, the current cursor node, and
one new node at the next cell in the original direction parented to the
current node. -/
theorem c6_stop_thm (mapf : Coords → Bool) (goal : Coords) (fuel : Nat) (s current : Node)
    (dir : Direction) (C : List Node)
    (hg : current.position ≠ goal)
    (ht : mapf current.position = true)
    (hcol : collectNodes mapf goal fuel current dir = some C)
    (hne : C.isEmpty = false) :
    expand mapf goal (fuel + 1) s current dir =
      some (some (C ++
        [current, Node.from_parent current (stepPos current.position (dirVec dir)) goal])) := by
  rw [expand_succ, if_neg hg]
  simp [ht, hcol, hne]

/-- C6 witness: a horizontal scan step with a forced neighbour above. -/
theorem c6_witness :
    expand (fun c => !(c == ((2 : Nat), (1 : Nat)))) (9, 9) 1 (Node.new 0 0 (2, 2) (1, 2))
        (Node.new 0 0 (2, 2) (1, 2)) (Direction.Horizontal 1) =
      some (some ([Node.from_parent (Node.new 0 0 (2, 2) (1, 2)) (3, 1) (9, 9)] ++
        [Node.new 0 0 (2, 2) (1, 2),
          Node.from_parent (Node.new 0 0 (2, 2) (1, 2))
            (stepPos (2, 2) (dirVec (Direction.Horizontal 1))) (9, 9)])) :=
  c6_stop_thm (fun c => !(c == ((2 : Nat), (1 : Nat)))) (9, 9) 0
    (Node.new 0 0 (2, 2) (1, 2)) (Node.new 0 0 (2, 2) (1, 2)) (Direction.Horizontal 1)
    [Node.from_parent (Node.new 0 0 (2, 2) (1, 2)) (3, 1) (9, 9)]
    (by decide) rfl rfl rfl

/-- C7: when an expand iteration collects nothing, the cursor advances to the
next cell reparented to the node that entered the scan, so its g cost is
computed relative to the scan's entry node. -/
theorem c7_advance_thm (mapf : Coords → Bool) (goal : Coords) (fuel : Nat) (s current : Node)
    (dir : Direction)
    (hg : current.position ≠ goal)
    (ht : mapf current.position = true)
    (hcol : collectNodes mapf goal fuel current dir = some []) :
    expand mapf goal (fuel + 1) s current dir =
      expand mapf goal fuel s
        (Node.from_parent s (stepPos current.position (dirVec dir)) goal) dir ∧
    (Node.from_parent s (stepPos current.position (dirVec dir)) goal).parent = s.position ∧
    (Node.from_parent s (stepPos current.position (dirVec dir)) goal).g =
      s.g + distance s.position (stepPos current.position (dirVec dir)) := by
  refine ⟨?_, rfl, rfl⟩
  rw [expand_succ, if_neg hg]
  simp [ht, hcol]

/-- C7 witness: a horizontal scan step on an open map advances the cursor,
reparented to the scan's entry node. -/
theorem c7_witness :
    expand (fun _ => true : Coords → Bool) (9, 9) 1 (Node.new 0 0 (1, 2) (0, 2))
        (Node.new 0 0 (2, 2) (1, 2)) (Direction.Horizontal 1) =
      expand (fun _ => true : Coords → Bool) (9, 9) 0 (Node.new 0 0 (1, 2) (0, 2))
        (Node.from_parent (Node.new 0 0 (1, 2) (0, 2))
          (stepPos (2, 2) (dirVec (Direction.Horizontal 1))) (9, 9))
        (Direction.Horizontal 1) ∧
    (Node.from_parent (Node.new 0 0 (1, 2) (0, 2))
      (stepPos (2, 2) (dirVec (Direction.Horizontal 1))) (9, 9)).parent = (1, 2) ∧
    (Node.from_parent (Node.new 0 0 (1, 2) (0, 2))
      (stepPos (2, 2) (dirVec (Direction.Horizontal 1))) (9, 9)).g =
      (Node.new 0 0 (1, 2) (0, 2)).g +
        distance (1, 2) (stepPos (2, 2) (dirVec (Direction.Horizontal 1))) :=
  c7_advance_thm (fun _ => true) (9, 9) 0 (Node.new 0 0 (1, 2) (0, 2))
    (Node.new 0 0 (2, 2) (1, 2)) (Direction.Horizontal 1) (by decide) rfl rfl

/-- C8: the scan's recursion has depth exactly one; straight scans are plain
loops using only their forced-neighbour detector, and the diagonal scan is
expressible with exactly one level of straight sub-scans, never recursing into
a diagonal scan. -/
theorem c8_depth_one_thm (mapf : Coords → Bool) (goal : Coords) (h v : Int) :
    ∀ fuel s current,
      expand mapf goal fuel s current (.Horizontal h) =
        straightExpand mapf goal (fun c => forced_horizontal mapf c h goal) (h, 0)
          fuel s current ∧
      expand mapf goal fuel s current (.Vertical v) =
        straightExpand mapf goal (fun c => forced_vertical mapf c v goal) (0, v)
          fuel s current ∧
      expand mapf goal fuel s current (.Diagonal h v) =
        diagExpand mapf goal h v fuel s current := by
  intro fuel
  induction fuel with
  | zero => exact fun s current => ⟨rfl, rfl, rfl⟩
  | succ fuel ih =>
    intro s current
    refine ⟨?_, ?_, ?_⟩
    · by_cases h1 : current.position = goal
      · simp [expand, straightExpand, h1]
      · by_cases h2 : mapf current.position
        · simp only [expand, straightExpand, if_neg h1, h2, Bool.not_true,
            Bool.false_eq_true, if_false]
          by_cases h3 : (optList (forced_horizontal mapf current h goal)).isEmpty
          · simp only [h3, if_true]
            exact (ih s _).1
          · simp only [h3, if_false]
            rfl
        · simp only [Bool.not_eq_true] at h2
          simp [expand, straightExpand, h1, h2]
    · by_cases h1 : current.position = goal
      · simp [expand, straightExpand, h1]
      · by_cases h2 : mapf current.position
        · simp only [expand, straightExpand, if_neg h1, h2, Bool.not_true,
            Bool.false_eq_true, if_false]
          by_cases h3 : (optList (forced_vertical mapf current v goal)).isEmpty
          · simp only [h3, if_true]
            exact (ih s _).2.1
          · simp only [h3, if_false]
            rfl
        · simp only [Bool.not_eq_true] at h2
          simp [expand, straightExpand, h1, h2]
    · by_cases h1 : current.position = goal
      · simp [expand, diagExpand, h1]
      · by_cases h2 : mapf current.position
        · simp only [expand, diagExpand, if_neg h1, h2, Bool.not_true,
            Bool.false_eq_true, if_false]
          rw [(ih current current).1, (ih current current).2.1]
          cases e1 : straightExpand mapf goal (fun c => forced_horizontal mapf c h goal)
              (h, 0) fuel current current with
          | none => rfl
          | some o1 =>
            cases e2 : straightExpand mapf goal (fun c => forced_vertical mapf c v goal)
                (0, v) fuel current current with
            | none => rfl
            | some o2 =>
              simp only []
              by_cases h3 : (optList o1 ++ optList o2).isEmpty
              · simp only [h3, if_true]
                exact (ih s _).2.2
              · simp only [h3, if_false]
                rfl
        · simp only [Bool.not_eq_true] at h2
          simp [expand, diagExpand, h1, h2]

theorem mem_opt_ite {l : List Node} {b : Node}
    (hb : b ∈ ((if l.isEmpty then none else some l) : Option (List Node)).getD []) :
    b ∈ l := by
  by_cases he : l.isEmpty
  · rw [if_pos he] at hb
    simp at hb
  · rw [if_neg he] at hb
    simpa using hb

theorem mem_two_ifs {b x y : Node} {c1 c2 : Bool}
    (hb : b ∈ (if c1 then [x] else []) ++ (if c2 then [y] else [])) : b = x ∨ b = y := by
  rcases List.mem_append.mp hb with h | h
  · cases c1 <;> simp_all
  · cases c2 <;> simp_all

theorem forced_horizontal_parent (mapf : Coords → Bool) (n : Node) (d : Int) (goal : Coords) :
    ∀ b ∈ optList (forced_horizontal mapf n d goal), b.parent = n.position := by
  intro b hb
  simp only [forced_horizontal, optList] at hb
  rcases mem_two_ifs (mem_opt_ite hb) with rfl | rfl <;> rfl

theorem forced_vertical_parent (mapf : Coords → Bool) (n : Node) (d : Int) (goal : Coords) :
    ∀ b ∈ optList (forced_vertical mapf n d goal), b.parent = n.position := by
  intro b hb
  simp only [forced_vertical, optList] at hb
  rcases mem_two_ifs (mem_opt_ite hb) with rfl | rfl <;> rfl

theorem expand_batch (mapf : Coords → Bool) (goal : Coords) :
    ∀ fuel (s current : Node) (dir : Direction) (B : List Node),
      s.position ≠ goal → s.parent ≠ goal →
      (current = s ∨ current.parent = s.position) →
      expand mapf goal fuel s current dir = some (some B) →
      ∀ b ∈ B, (b.parent = s.position ∨ b.parent = s.parent ∨ posIn B b.parent) ∧
        b.parent ≠ goal := by
  intro fuel
  induction fuel with
  | zero =>
    intro s current dir B _ _ _ hexp
    simp [expand] at hexp
  | succ fuel ih =>
    intro s current dir B hsg hsp hcur hexp
    have hcurp : current.parent = s.position ∨ current.parent = s.parent := by
      rcases hcur with rfl | hp
      · exact Or.inr rfl
      · exact Or.inl hp
    have hcurpg : current.parent ≠ goal := by
      rcases hcurp with hp | hp <;> rw [hp] <;> assumption
    rw [expand_succ] at hexp
    by_cases h1 : current.position = goal
    · rw [if_pos h1] at hexp
      simp only [Option.some.injEq] at hexp
      subst hexp
      intro b hb
      simp only [List.mem_singleton] at hb
      subst hb
      rcases hcur with rfl | hp
      · exact absurd h1 hsg
      · exact ⟨Or.inl hp, hp ▸ hsg⟩
    · rw [if_neg h1] at hexp
      by_cases h2 : mapf current.position
      · simp only [h2, Bool.not_true, Bool.false_eq_true, if_false] at hexp
        cases hcol : collectNodes mapf goal fuel current dir with
        | none => simp [hcol] at hexp
        | some C =>
          simp only [hcol] at hexp
          by_cases h3 : C.isEmpty
          · rw [if_pos h3] at hexp
            exact ih s (Node.from_parent s (stepPos current.position (dirVec dir)) goal)
              dir B hsg hsp (Or.inr rfl) hexp
          · rw [if_neg h3] at hexp
            simp only [Option.some.injEq] at hexp
            subst hexp
            have hcmem : current ∈ C ++
                [current, Node.from_parent current (stepPos current.position (dirVec dir)) goal] := by
              simp
            have hC : ∀ b ∈ C,
                (b.parent = current.position ∨ b.parent = current.parent ∨ posIn C b.parent) ∧
                  b.parent ≠ goal := by
              cases dir with
              | Horizontal hh =>
                simp only [collectNodes, Option.some.injEq] at hcol
                intro b hb
                rw [← hcol] at hb
                have hp := forced_horizontal_parent mapf current hh goal b hb
                exact ⟨Or.inl hp, hp ▸ h1⟩
              | Vertical vv =>
                simp only [collectNodes, Option.some.injEq] at hcol
                intro b hb
                rw [← hcol] at hb
                have hp := forced_vertical_parent mapf current vv goal b hb
                exact ⟨Or.inl hp, hp ▸ h1⟩
              | Diagonal hh vv =>
                simp only [collectNodes] at hcol
                cases e1 : expand mapf goal fuel current current (.Horizontal hh) with
                | none => rw [e1] at hcol; simp at hcol
                | some o1 =>
                  cases e2 : expand mapf goal fuel current current (.Vertical vv) with
                  | none => rw [e1, e2] at hcol; simp at hcol
                  | some o2 =>
                    rw [e1, e2] at hcol
                    simp only [Option.some.injEq] at hcol
                    intro b hb
                    rw [← hcol] at hb
                    rcases List.mem_append.mp hb with hb1 | hb1
                    · cases o1 with
                      | none => simp [optList] at hb1
                      | some B1 =>
                        obtain ⟨hd, hg⟩ := ih current current (.Horizontal hh) B1 h1 hcurpg
                          (Or.inl rfl) e1 b (by simpa [optList] using hb1)
                        refine ⟨?_, hg⟩
                        rcases hd with hd | hd | hd
                        · exact Or.inl hd
                        · exact Or.inr (Or.inl hd)
                        · obtain ⟨m, hm, hmp⟩ := hd
                          rw [← hcol]
                          exact Or.inr (Or.inr
                            ⟨m, List.mem_append_left _ (by simpa [optList] using hm), hmp⟩)
                    · cases o2 with
                      | none => simp [optList] at hb1
                      | some B2 =>
                        obtain ⟨hd, hg⟩ := ih current current (.Vertical vv) B2 h1 hcurpg
                          (Or.inl rfl) e2 b (by simpa [optList] using hb1)
                        refine ⟨?_, hg⟩
                        rcases hd with hd | hd | hd
                        · exact Or.inl hd
                        · exact Or.inr (Or.inl hd)
                        · obtain ⟨m, hm, hmp⟩ := hd
                          rw [← hcol]
                          exact Or.inr (Or.inr
                            ⟨m, List.mem_append_right _ (by simpa [optList] using hm), hmp⟩)
            intro b hb
            rcases List.mem_append.mp hb with hbC | hbT
            · obtain ⟨hd, hg⟩ := hC b hbC
              refine ⟨?_, hg⟩
              rcases hd with hd | hd | hd
              · exact Or.inr (Or.inr ⟨current, hcmem, hd.symm⟩)
              · rcases hcurp with hp | hp
                · exact Or.inl (hd.trans hp)
                · exact Or.inr (Or.inl (hd.trans hp))
              · obtain ⟨m, hm, hmp⟩ := hd
                exact Or.inr (Or.inr ⟨m, List.mem_append_left _ hm, hmp⟩)
            · simp only [List.mem_cons, List.not_mem_nil, or_false] at hbT
              rcases hbT with rfl | rfl
              · refine ⟨?_, hcurpg⟩
                rcases hcurp with hp | hp
                · exact Or.inl hp
                · exact Or.inr (Or.inl hp)
              · exact ⟨Or.inr (Or.inr ⟨current, hcmem, rfl⟩), h1⟩
      · simp only [Bool.not_eq_true] at h2
        simp [h2] at hexp

theorem check_jump_batch (fuel : Nat) (mapf : Coords → Bool) (n : Node) (d : Int × Int)
    (goal : Coords) (ob : Option (List Node))
    (hng : n.position ≠ goal) (hnp : n.parent ≠ goal)
    (hcj : check_jump fuel mapf n d goal = some ob) :
    ∀ b ∈ optList ob,
      (b.parent = n.position ∨ b.parent = n.parent ∨ posIn (optList ob) b.parent) ∧
        b.parent ≠ goal := by
  simp only [check_jump] at hcj
  cases ob with
  | none => simp [optList]
  | some B =>
    simp only [optList, Option.getD_some]
    exact expand_batch mapf goal fuel n n _ B hng hnp (Or.inl rfl) hcj

theorem jpsLoop_closed (mapf : Coords → Bool) (goal : Coords) :
    ∀ fuel opn closed (g0 : Node) (L : List Node),
      LoopInv goal opn closed →
      jpsLoopAux mapf goal fuel opn closed = some (some (g0, L)) →
      (∀ m ∈ L, posIn L m.parent) ∧ posIn L g0.parent := by
  intro fuel
  induction fuel with
  | zero =>
    intro opn closed g0 L _ hexec
    simp [jpsLoopAux] at hexec
  | succ fuel ih =>
    intro opn closed g0 L hinv hexec
    cases hp : popMin opn with
    | none => simp [jpsLoopAux, hp] at hexec
    | some p =>
      obtain ⟨n, opn'⟩ := p
      have hperm := popMin_perm hp
      have hmem_of : ∀ m : Node, m ∈ opn' ++ closed → m ∈ opn ++ closed := by
        intro m hm
        rcases List.mem_append.mp hm with h | h
        · exact List.mem_append_left _ (hperm.mem_iff.mpr (List.mem_cons_of_mem n h))
        · exact List.mem_append_right _ h
      have hnin : n ∈ opn ++ closed :=
        List.mem_append_left _ (hperm.mem_iff.mpr (List.mem_cons_self n opn'))
      have hsplit : ∀ c, posIn (opn ++ closed) c → c = n.position ∨ posIn (opn' ++ closed) c := by
        intro c hc
        obtain ⟨m, hm, hmp⟩ := hc
        rcases List.mem_append.mp hm with h | h
        · rcases List.mem_cons.mp (hperm.mem_iff.mp h) with rfl | h'
          · exact Or.inl hmp.symm
          · exact Or.inr ⟨m, List.mem_append_left _ h', hmp⟩
        · exact Or.inr ⟨m, List.mem_append_right _ h, hmp⟩
      simp only [jpsLoopAux, hp] at hexec
      by_cases hgoal : n.position = goal
      · rw [if_pos hgoal] at hexec
        simp only [Option.some.injEq, Prod.mk.injEq] at hexec
        obtain ⟨rfl, rfl⟩ := hexec
        have hLsub : ∀ m : Node, m ∈ closed ++ opn' → m ∈ opn ++ closed := by
          intro m hm
          apply hmem_of
          rw [List.mem_append] at hm ⊢
          tauto
        have hposL : ∀ c, posIn (opn' ++ closed) c → posIn (closed ++ opn') c := by
          intro c hc
          obtain ⟨m, hm, hmp⟩ := hc
          refine ⟨m, ?_, hmp⟩
          rw [List.mem_append] at hm ⊢
          tauto
        constructor
        · intro m hm
          obtain ⟨hpin, hpg⟩ := hinv m (hLsub m hm)
          rcases hsplit _ hpin with he | he
          · exact absurd (he.trans hgoal) hpg
          · exact hposL _ he
        · obtain ⟨hpin, hpg⟩ := hinv n hnin
          rcases hsplit _ hpin with he | he
          · exact absurd (he.trans hgoal) hpg
          · exact hposL _ he
      · rw [if_neg hgoal] at hexec
        by_cases hcl : closedContains closed n
        · rw [if_pos hcl] at hexec
          have hinv' : LoopInv goal opn' closed := by
            intro m hm
            obtain ⟨hpin, hpg⟩ := hinv m (hmem_of m hm)
            refine ⟨?_, hpg⟩
            rcases hsplit _ hpin with he | he
            · obtain ⟨m0, hm0, hm0p⟩ := (closedContains_iff closed n).mp hcl
              exact ⟨m0, List.mem_append_right _ hm0, by rw [hm0p, ← he]⟩
            · exact he
          exact ih opn' closed g0 L hinv' hexec
        · rw [if_neg hcl] at hexec
          cases hcj : check_jump fuel mapf n (direction n.position n.parent) goal with
          | none => simp [hcj] at hexec
          | some ob =>
            simp only [hcj] at hexec
            obtain ⟨hnpin, hnpg⟩ := hinv n hnin
            have hbatch := check_jump_batch fuel mapf n _ goal ob hgoal hnpg hcj
            have hnmem : n ∈ pushAll (optList ob) opn' ++ (closed ++ [n]) := by
              simp [pushAll]
            have htrans : ∀ c, posIn (opn ++ closed) c →
                posIn (pushAll (optList ob) opn' ++ (closed ++ [n])) c := by
              intro c hc
              rcases hsplit c hc with rfl | hm0
              · exact ⟨n, hnmem, rfl⟩
              · obtain ⟨m0, hm0, hm0p⟩ := hm0
                refine ⟨m0, ?_, hm0p⟩
                simp only [pushAll, List.mem_append, List.mem_reverse]
                rw [List.mem_append] at hm0
                tauto
            have hBpos : ∀ c, posIn (optList ob) c →
                posIn (pushAll (optList ob) opn' ++ (closed ++ [n])) c := by
              intro c hc
              obtain ⟨m0, hm0, hm0p⟩ := hc
              refine ⟨m0, ?_, hm0p⟩
              simp only [pushAll, List.mem_append, List.mem_reverse]
              tauto
            have hinv' : LoopInv goal (pushAll (optList ob) opn') (closed ++ [n]) := by
              intro m hm
              have hm' : m ∈ optList ob ∨ m ∈ opn' ++ closed ∨ m = n := by
                rcases List.mem_append.mp hm with h | h
                · simp only [pushAll, List.mem_append, List.mem_reverse] at h
                  rcases h with h | h
                  · exact Or.inl h
                  · exact Or.inr (Or.inl (List.mem_append_left _ h))
                · rcases List.mem_append.mp h with h | h
                  · exact Or.inr (Or.inl (List.mem_append_right _ h))
                  · simp only [List.mem_singleton] at h
                    exact Or.inr (Or.inr h)
              rcases hm' with hmB | hmold | rfl
              · obtain ⟨hd, hg⟩ := hbatch m hmB
                refine ⟨?_, hg⟩
                rcases hd with hd | hd | hd
                · rw [hd]
                  exact ⟨n, hnmem, rfl⟩
                · rw [hd]
                  exact htrans _ hnpin
                · exact hBpos _ hd
              · obtain ⟨hpin, hpg⟩ := hinv m (hmem_of m hmold)
                exact ⟨htrans _ hpin, hpg⟩
              · exact ⟨htrans _ hnpin, hnpg⟩
            exact ih _ _ g0 L hinv' hexec

/-- C4: whenever jps_path returns a route, at the moment the path is rebuilt
every ancestor of the goal node - each cell reached by repeatedly following
parent positions through the final closed list - is present, by position, in
that closed list. -/
theorem c4_ancestors_thm (fuel : Nat) (mapf : Coords → Bool) (start goal : Coords)
    (g0 : Node) (L : List Node)
    (hrun : jpsPathAux fuel mapf start goal = some (some (g0, L))) : AncClosed L g0 := by
  by_cases hsg : start = goal
  · subst hsg
    rw [jpsPathAux, if_pos rfl] at hrun
    cases fuel with
    | zero => simp [jpsLoopAux] at hrun
    | succ fuel =>
      have hpop : popMin [start_node start start] = some (start_node start start, []) := rfl
      simp only [jpsLoopAux, hpop] at hrun
      rw [if_pos (show (start_node start start).position = start from rfl)] at hrun
      simp only [List.append_nil, Option.some.injEq, Prod.mk.injEq] at hrun
      obtain ⟨rfl, rfl⟩ := hrun
      intro c hc
      cases hc with
      | base hne => exact absurd rfl hne
      | step c m hc hm hmp hmn => exact absurd hm (List.not_mem_nil m)
  · rw [jpsPathAux, if_neg hsg] at hrun
    have hsnmem : start_node start goal ∈
        seedNodes (start_node start goal) goal ++ [start_node start goal] :=
      List.mem_append_right _ (by simp)
    have hinv : LoopInv goal (seedNodes (start_node start goal) goal) [start_node start goal] := by
      intro m hm
      rcases List.mem_append.mp hm with h | h
      · simp only [seedNodes, List.mem_map] at h
        obtain ⟨c, hc, rfl⟩ := h
        exact ⟨⟨start_node start goal, hsnmem, rfl⟩, hsg⟩
      · simp only [List.mem_singleton] at h
        subst h
        exact ⟨⟨start_node start goal, hsnmem, rfl⟩, hsg⟩
    obtain ⟨hL, hg0⟩ := jpsLoop_closed mapf goal fuel _ _ g0 L hinv hrun
    intro c hc
    induction hc with
    | base hne => exact hg0
    | step c m hc hm hmp hmn ih => exact hL m hm

/-- C4 witness: a concrete trivial run returning a route, whose goal node has
no ancestors to look up. -/
theorem c4_witness : AncClosed [] (start_node (17, 4) (17, 4)) :=
  c4_ancestors_thm 1 (fun _ => true) (17, 4) (17, 4) (start_node (17, 4) (17, 4)) [] rfl

end JPS
